import Mathlib

/-!
Shallow embedding of the Translator-Bot repository (src/bot.py) in Lean 4.

Python strings are modelled as `List Char` (`Str`).  Python library
primitives used by the source (`str.replace`, `str.split()` with no
arguments, `str.strip()`, `"sep".join(...)`, `"\n"`-splitting) are embedded
as executable Lean functions on `Str`.  The two functions whose recursion
is not structural on the string (`str.replace` and whitespace `split`) are
written with an explicit fuel argument that strictly decreases; fuel equal
to the string length is always sufficient because every step consumes at
least one character, and the top-level wrappers instantiate the fuel with
the string length.
-/

namespace TranslatorBot

/-- Python strings, modelled as lists of characters. -/
abbrev Str := List Char

/-- Converts a Lean string literal to the `List Char` model. -/
def str (s : String) : Str := s.data

/-- Whitespace test used by Python `str.strip()` / `str.split()`
(restricted to the ASCII whitespace characters). -/
def pyIsSpace (c : Char) : Bool :=
  c == ' ' || c == '\t' || c == '\n' || c == '\r' || c == '\x0b' || c == '\x0c'

/-- Python `s.strip()`: drop leading and trailing whitespace. -/
def pyStrip (s : Str) : Str :=
  ((s.dropWhile pyIsSpace).reverse.dropWhile pyIsSpace).reverse

/-- Fuelled core of Python `str.split()` with no arguments: split on runs
of whitespace, discarding empty pieces.  One unit of fuel is spent per
word or per leading whitespace character, so `s.length` fuel suffices. -/
def pySplitWsFuel : Nat → Str → List Str
  | _, [] => []
  | 0, s => [s]
  | fuel + 1, c :: rest =>
    if pyIsSpace c then pySplitWsFuel fuel rest
    else
      (c :: rest.takeWhile (fun d => !pyIsSpace d)) ::
        pySplitWsFuel fuel (rest.dropWhile (fun d => !pyIsSpace d))

/-- Python `s.split()` (no arguments). -/
def pySplitWs (s : Str) : List Str := pySplitWsFuel s.length s

/-- Python `"sep".join(pieces)` for a one-character separator. -/
def joinSep (sep : Char) : List Str → Str
  | [] => []
  | [w] => w
  | w :: rest => w ++ sep :: joinSep sep rest

/-- Python `" ".join(pieces)`. -/
def joinSpace : List Str → Str := joinSep ' '

/-- Python `"\n".join(pieces)`. -/
def joinNL : List Str → Str := joinSep '\n'

/-- Fuelled core of Python `s.replace(pat, rep)`: scan left to right,
replacing non-overlapping occurrences of `pat` and never rescanning the
replacement text.  One unit of fuel is spent per consumed character (at
least one per step), so `s.length` fuel suffices. -/
def pyReplaceFuel (pat rep : Str) : Nat → Str → Str
  | _, [] => []
  | 0, s => s
  | fuel + 1, c :: rest =>
    if !pat.isEmpty && pat.isPrefixOf (c :: rest) then
      rep ++ pyReplaceFuel pat rep fuel (rest.drop (pat.length - 1))
    else
      c :: pyReplaceFuel pat rep fuel rest

/-- Python `s.replace(pat, rep)`. -/
def pyReplace (pat rep s : Str) : Str := pyReplaceFuel pat rep s.length s

/-!  src/bot.py lines 54-65: `safe_name`. -/

/-- src/bot.py `safe_name`: returns "Unknown" for a falsy (empty) name,
otherwise breaks mention triggers with zero-width spaces: first
`name.replace("@", "@\u200B")`, then `name.replace("<@", "<@\u200B")`. -/
def safe_name (name : Str) : Str :=
  if name = [] then str "Unknown"
  else
    pyReplace (str "<@") (str "<@\u200B")
      (pyReplace (str "@") (str "@\u200B") name)

/-!  src/bot.py lines 67-73: `clean_message_content`. -/

/-- src/bot.py `clean_message_content`: `(content or "").strip()` followed
by `" ".join(content.split())`.  `none` models Python `None`. -/
def clean_message_content (content : Option Str) : Str :=
  let c := pyStrip (content.getD [])
  joinSpace (pySplitWs c)

/-!  src/bot.py lines 126-147: `chunk_text_blocks`. -/

/-- Loop of `chunk_text_blocks`: `current` is the list of lines of the
chunk being built and `current_len` the running Python `current_len`
counter (each line counted as `len(line) + 1`).  Emitted chunks are the
`"\n"`-joins of their lines; the final partial chunk is emitted iff
`current` is non-empty. -/
def chunkLoop (max_chars : Nat) :
    List Str → List Str → Nat → List Str
  | [], current, _ =>
    if current = [] then [] else [joinNL current]
  | line :: rest, current, current_len =>
    if current_len + line.length + 1 > max_chars ∧ current ≠ [] then
      joinNL current :: chunkLoop max_chars rest [line] (line.length + 1)
    else
      chunkLoop max_chars rest (current ++ [line]) (current_len + line.length + 1)

/-- src/bot.py `chunk_text_blocks(lines, max_chars)`. -/
def chunk_text_blocks (lines : List Str) (max_chars : Nat := 12000) : List Str :=
  chunkLoop max_chars lines [] 0

/-- Python `s.split("\n")`: split on every newline; `"".split("\n")`
is `[""]`. -/
def splitNL : Str → List Str
  | [] => [[]]
  | c :: rest =>
    if c = '\n' then [] :: splitNL rest
    else
      match splitNL rest with
      | [] => [[c]]
      | l :: ls => (c :: l) :: ls

/-!  src/bot.py lines 94-113 and 227-266: summary prompts and the
summarization orchestrator of the `/summary` command.  The Generation
Client (`gemini_generate`, an external collaborator) is modelled as an
arbitrary total function `gen : Str → Str`; this captures the assumption
that every backend call returns (possibly the empty string) without
raising.  The process-wide glossary serialization
(`json.dumps(SLANG, ...) if SLANG else "\x7b\x7d"`) is passed in as the
parameter `glossary`. -/

/-- src/bot.py `build_summary_prompt(formatted_chat)`, with the glossary
serialization as an explicit parameter. -/
def build_summary_prompt (glossary formatted_chat : Str) : Str :=
  pyStrip
    (str "\nYou are summarizing the last 24 hours of a Discord channel. The content may include Hinglish + slang + funny spellings.\n\nWrite a SHORT bullet-point summary.\nRequirements:\n- Use short bullets only (no long paragraphs).\n- When referring to members, use the plain text names shown in the chat lines.\n- Do NOT use @mentions or ping formats.\n- Capture key topics, decisions, and outcomes.\n- If there was a heated discussion/fight, mention which members were involved and what it was about, and what the outcome was.\n- Use this slang glossary when helpful:\n"
      ++ glossary
      ++ str "\n\nChat (chronological):\n"
      ++ formatted_chat
      ++ str "\n\nReturn ONLY bullets, each starting with \"- \".\n")

/-- src/bot.py lines 239-245: the map-phase prompt for chunk `ch`,
numbered `i` of `n`. -/
def map_prompt (i n : Nat) (ch : Str) : Str :=
  pyStrip
    (str "\nSummarize this subset of Discord chat into SHORT bullet points.\nReturn ONLY bullets starting with \"- \".\nChunk "
      ++ str (toString i) ++ str "/" ++ str (toString n) ++ str ":\n\n"
      ++ ch ++ str "\n")

/-- src/bot.py lines 250-260: the reduce-phase prompt over the joined
partial summaries. -/
def reduce_prompt (reduce_input : Str) : Str :=
  pyStrip
    (str "\nCombine these partial summaries into ONE short bullet-point summary.\nRequirements:\n- Short bullets only\n- Mention member names as plain text (no pings)\n- Capture fights/disagreements and outcomes if present\nReturn ONLY bullets starting with \"- \".\n\nPartial summaries:\n"
      ++ reduce_input ++ str "\n")

/-- src/bot.py line 232/264 fallback text sent when the final generated
summary is empty. -/
def sentinel : Str := str "Could not generate summary."

/-- src/bot.py lines 237-247, the `for i, ch in enumerate(chunks, start=1)`
map-phase loop: returns, in call order, each map prompt paired with the
Generation Client output for it. -/
def mapPhase (gen : Str → Str) (n : Nat) : Nat → List Str → List (Str × Str)
  | _, [] => []
  | i, ch :: rest =>
    (map_prompt i n ch, gen (map_prompt i n ch)) :: mapPhase gen n (i + 1) rest

/-- src/bot.py lines 227-266 (the `try:` body of `/summary` after
chunking, with every backend call assumed to return): yields the list of
prompts passed to the Generation Client in call order, paired with the
single reply text sent back to the channel. -/
def summaryRun (gen : Str → Str) (glossary : Str) (chunks : List Str) :
    List Str × Str :=
  if chunks.length = 1 then
    let prompt := build_summary_prompt glossary (chunks.headD [])
    let final := gen prompt
    ([prompt], if final ≠ [] then final else sentinel)
  else
    let calls := mapPhase gen chunks.length 1 chunks
    let reduce_input := joinNL (calls.map Prod.snd)
    let rp := reduce_prompt reduce_input
    let final := gen rp
    (calls.map Prod.fst ++ [rp], if final ≠ [] then final else sentinel)

/-!  src/bot.py lines 191-225: message collection of `/summary`. -/

/-- Fields of a retrieved platform message that src/bot.py lines 191-203
read: whether the author is a bot, the author display name, the raw
content (`none` models a missing payload), and the formatted timestamp. -/
structure RawMsg where
  author_bot : Bool
  display_name : Str
  content : Option Str
  created_at : Str

/-- src/bot.py line 203: `f"[\x7bts\x7d] \x7bauthor_name\x7d: \x7bcontent\x7d"`. -/
def formatLine (ts author content : Str) : Str :=
  str "[" ++ ts ++ str "] " ++ author ++ str ": " ++ content

/-- src/bot.py lines 193-203, the history loop: skip bot-authored
messages, normalize the content and skip messages that normalize to the
empty string, and format the rest as chat lines in retrieval order. -/
def collectMessages : List RawMsg → List Str
  | [] => []
  | m :: rest =>
    if m.author_bot then collectMessages rest
    else if clean_message_content m.content = [] then collectMessages rest
    else
      formatLine m.created_at (safe_name m.display_name)
          (clean_message_content m.content)
        :: collectMessages rest

/-- src/bot.py lines 218-223 fixed reply when no qualifying message was
retrieved. -/
def no_messages_reply : Str := str "No messages found in the past 24 hours."

/-- src/bot.py lines 188-266, the `/summary` command body after the
defer and text-channel check, with history retrieval succeeding and
returning `msgs`: the Generation Client call trace paired with the single
reply sent. -/
def summary (gen : Str → Str) (glossary : Str) (msgs : List RawMsg) :
    List Str × Str :=
  let messages := collectMessages msgs
  if messages = [] then ([], no_messages_reply)
  else summaryRun gen glossary (chunk_text_blocks messages 12000)

/-!  Specification-side predicates used to state the claims. -/

/-- Every occurrence of the mention trigger character is immediately
followed by the zero-width separator U+200B. -/
def atSafe : Str → Prop
  | [] => True
  | c :: rest => (c = '@' → rest.head? = some '\u200B') ∧ atSafe rest

/-- No two consecutive space characters occur. -/
def noDoubleSpace : Str → Prop
  | [] => True
  | c :: rest => (c = ' ' → rest.head? ≠ some ' ') ∧ noDoubleSpace rest

/-- Python `current_len` accounting of a list of lines: each line counted
as its length plus one separator. -/
def sizeSum (ls : List Str) : Nat := (ls.map (fun l => l.length + 1)).sum

/-- The map-phase prompts for `chunks`, one per chunk in chunk order,
numbered from `i` out of `n`. -/
def mapPromptsFrom (n : Nat) : Nat → List Str → List Str
  | _, [] => []
  | i, ch :: rest => map_prompt i n ch :: mapPromptsFrom n (i + 1) rest

/-!  Elementary facts about the embedded string primitives. -/

theorem joinSep_nil (sep : Char) : joinSep sep [] = [] := rfl

theorem joinSep_single (sep : Char) (w : Str) : joinSep sep [w] = w := rfl

theorem joinSep_cons_cons (sep : Char) (w x : Str) (t : List Str) :
    joinSep sep (w :: x :: t) = w ++ sep :: joinSep sep (x :: t) := rfl

theorem sizeSum_nil : sizeSum [] = 0 := rfl

theorem sizeSum_cons (l : Str) (t : List Str) :
    sizeSum (l :: t) = l.length + 1 + sizeSum t := by
  simp [sizeSum]

theorem sizeSum_append (a b : List Str) :
    sizeSum (a ++ b) = sizeSum a + sizeSum b := by
  simp [sizeSum]

theorem joinSep_length (sep : Char) :
    ∀ ls : List Str, ls ≠ [] → (joinSep sep ls).length + 1 = sizeSum ls := by
  intro ls
  induction ls with
  | nil => intro h; exact absurd rfl h
  | cons w t ih =>
    intro _
    cases t with
    | nil => simp [joinSep_single, sizeSum_cons, sizeSum_nil]
    | cons x t' =>
      have h := ih (by simp)
      rw [joinSep_cons_cons, sizeSum_cons]
      simp only [List.length_append, List.length_cons]
      omega

/-- Every chunk emitted by `chunkLoop` is within budget, or is a single
(oversized) line drawn from `current` or the remaining input. -/
theorem chunkLoop_size_bound (M : Nat) :
    ∀ (lines current : List Str) (clen : Nat),
      clen = sizeSum current →
      (2 ≤ current.length → clen ≤ M) →
      ∀ c ∈ chunkLoop M lines current clen,
        c.length ≤ M ∨ ∃ l, (l ∈ current ∨ l ∈ lines) ∧ c = l ∧ M < l.length := by
  have emitted : ∀ (current : List Str) (clen : Nat),
      current ≠ [] → clen = sizeSum current → (2 ≤ current.length → clen ≤ M) →
      (joinNL current).length ≤ M ∨
        ∃ l, l ∈ current ∧ joinNL current = l ∧ M < l.length := by
    intro current clen hne hsize hbound
    cases current with
    | nil => exact absurd rfl hne
    | cons l t =>
      cases t with
      | nil =>
        rcases le_or_lt l.length M with h | h
        · exact Or.inl (by simpa [joinNL, joinSep_single] using h)
        · exact Or.inr ⟨l, by simp, rfl, h⟩
      | cons x t' =>
        have hb : clen ≤ M := hbound (by simp only [List.length_cons]; omega)
        have hlen := joinSep_length '\n' (l :: x :: t') (by simp)
        exact Or.inl (by unfold joinNL; omega)
  intro lines
  induction lines with
  | nil =>
    intro current clen hsize hbound c hc
    simp only [chunkLoop] at hc
    split at hc
    · simp at hc
    · next hne =>
      have hc' : c = joinNL current := by simpa using hc
      subst hc'
      rcases emitted current clen hne hsize hbound with h | ⟨l, hl, he, hlt⟩
      · exact Or.inl h
      · exact Or.inr ⟨l, Or.inl hl, he, hlt⟩
  | cons line rest ih =>
    intro current clen hsize hbound c hc
    simp only [chunkLoop] at hc
    split at hc
    · next hcond =>
      rcases List.mem_cons.mp hc with hhd | htl
      · subst hhd
        rcases emitted current clen hcond.2 hsize hbound with h | ⟨l, hl, he, hlt⟩
        · exact Or.inl h
        · exact Or.inr ⟨l, Or.inl hl, he, hlt⟩
      · rcases ih [line] (line.length + 1) (by simp [sizeSum_cons, sizeSum_nil])
            (by intro h; simp at h) c htl with h | ⟨l, hl, he, hlt⟩
        · exact Or.inl h
        · refine Or.inr ⟨l, ?_, he, hlt⟩
          rcases hl with hl | hl
          · simp at hl; subst hl; exact Or.inr (by simp)
          · exact Or.inr (by simp [hl])
    · next hcond =>
      rcases ih (current ++ [line]) (clen + line.length + 1)
          (by simp [sizeSum_append, sizeSum_cons, sizeSum_nil, hsize]; omega)
          (by
            intro h2
            cases hcc : current with
            | nil => subst hcc; simp at h2
            | cons y t =>
              have hne : current ≠ [] := by simp [hcc]
              rcases le_or_lt (clen + line.length + 1) M with h | h
              · exact h
              · exact absurd ⟨h, hne⟩ hcond)
          c hc with h | ⟨l, hl, he, hlt⟩
      · exact Or.inl h
      · refine Or.inr ⟨l, ?_, he, hlt⟩
        rcases hl with hl | hl
        · rcases List.mem_append.mp hl with hl | hl
          · exact Or.inl hl
          · simp at hl; subst hl; exact Or.inr (by simp)
        · exact Or.inr (by simp [hl])

/-- C1: for every input list of line strings and every positive character
budget M, every chunk string produced by `chunk_text_blocks` either has
length at most M, or is (equal to) exactly one input line whose own length
exceeds M: an oversized line is emitted alone and never split. -/
theorem chunk_size_bound (lines : List Str) (M : Nat) (hM : 0 < M) :
    ∀ c ∈ chunk_text_blocks lines M,
      c.length ≤ M ∨ ∃ l, l ∈ lines ∧ c = l ∧ M < l.length := by
  intro c hc
  rcases chunkLoop_size_bound M lines [] 0 (by simp [sizeSum_nil])
      (by intro h; simp at h) c hc with h | ⟨l, hl, he, hlt⟩
  · exact Or.inl h
  · rcases hl with hl | hl
    · simp at hl
    · exact Or.inr ⟨l, hl, he, hlt⟩

theorem chunk_size_bound_witness :
    0 < 3 ∧ ∀ c ∈ chunk_text_blocks [str "aa", str "bbbb"] 3,
      c.length ≤ 3 ∨ ∃ l, l ∈ [str "aa", str "bbbb"] ∧ c = l ∧ 3 < l.length :=
  ⟨by decide, chunk_size_bound [str "aa", str "bbbb"] 3 (by decide)⟩

/-- C6: chunking an empty list of lines yields the empty list of chunks
for any budget, not a one-element list containing an empty chunk. -/
theorem chunk_empty_input (M : Nat) : chunk_text_blocks [] M = [] := rfl

/-!  Round-trip of chunking (claim C2). -/

theorem splitNL_of_no_newline :
    ∀ s : Str, '\n' ∉ s → splitNL s = [s] := by
  intro s
  induction s with
  | nil => intro _; rfl
  | cons c rest ih =>
    intro h
    have hc : ¬(c = '\n') := by intro e; exact h (by simp [e])
    have hr : '\n' ∉ rest := fun m => h (List.mem_cons_of_mem _ m)
    simp [splitNL, hc, ih hr]

theorem splitNL_append_newline :
    ∀ l s : Str, '\n' ∉ l → splitNL (l ++ '\n' :: s) = l :: splitNL s := by
  intro l
  induction l with
  | nil => intro s _; simp [splitNL]
  | cons c l' ih =>
    intro s h
    have hc : ¬(c = '\n') := by intro e; exact h (by simp [e])
    have h' : '\n' ∉ l' := fun m => h (List.mem_cons_of_mem _ m)
    simp [splitNL, hc, ih s h']

theorem splitNL_joinNL :
    ∀ ls : List Str, ls ≠ [] → (∀ l ∈ ls, '\n' ∉ l) →
      splitNL (joinNL ls) = ls := by
  intro ls
  induction ls with
  | nil => intro h; exact absurd rfl h
  | cons w t ih =>
    intro _ h
    cases t with
    | nil => exact splitNL_of_no_newline w (h w (by simp))
    | cons x t' =>
      have hw : '\n' ∉ w := h w (by simp)
      have ht : splitNL (joinNL (x :: t')) = x :: t' :=
        ih (by simp) (fun l hl => h l (by simp [hl]))
      simp only [joinNL, joinSep_cons_cons]
      rw [splitNL_append_newline w _ hw]
      simpa [joinNL] using ht

/-- Splitting each emitted chunk back on the newline separator and
concatenating recovers exactly `current ++ lines`, provided no line
contains a newline. -/
theorem chunkLoop_roundtrip (M : Nat) :
    ∀ (lines current : List Str) (clen : Nat),
      (∀ l ∈ current, '\n' ∉ l) → (∀ l ∈ lines, '\n' ∉ l) →
      ((chunkLoop M lines current clen).map splitNL).flatten = current ++ lines := by
  intro lines
  induction lines with
  | nil =>
    intro current clen hcur _
    simp only [chunkLoop]
    split
    · next h => simp [h]
    · next h => simp [splitNL_joinNL current h hcur]
  | cons line rest ih =>
    intro current clen hcur hlines
    have hline : '\n' ∉ line := hlines line (by simp)
    have hrest : ∀ l ∈ rest, '\n' ∉ l := fun l hl => hlines l (by simp [hl])
    simp only [chunkLoop]
    split
    · next hcond =>
      have h1 : ∀ l ∈ [line], '\n' ∉ l := by
        intro l hl; simp at hl; subst hl; exact hline
      simp only [List.map_cons, List.flatten_cons]
      rw [splitNL_joinNL current hcond.2 hcur, ih [line] (line.length + 1) h1 hrest]
      simp
    · next _ =>
      have h1 : ∀ l ∈ current ++ [line], '\n' ∉ l := by
        intro l hl
        rcases List.mem_append.mp hl with h | h
        · exact hcur l h
        · simp at h; subst h; exact hline
      rw [ih (current ++ [line]) _ h1 hrest]
      simp

/-- C2 as stated is false: with the single input line "a\nb" (which
contains the join separator) and budget 10, re-splitting the produced
chunks yields ["a", "b"], not the original list. -/
theorem chunk_roundtrip_cex :
    ¬(((chunk_text_blocks [str "a\nb"] 10).map splitNL).flatten = [str "a\nb"]) := by
  decide

/-- C2 (amended): for every input list L of line strings none of which
contains the newline join separator, and every budget M > 0, splitting
each chunk of `chunk_text_blocks` on the separator and concatenating the
results in chunk order reproduces L exactly. -/
theorem chunk_roundtrip (L : List Str) (M : Nat) (hM : 0 < M)
    (hL : ∀ l ∈ L, '\n' ∉ l) :
    ((chunk_text_blocks L M).map splitNL).flatten = L := by
  simpa [chunk_text_blocks] using
    chunkLoop_roundtrip M L [] 0 (by simp) hL

theorem chunk_roundtrip_witness :
    0 < 3 ∧ (∀ l ∈ [str "ab", str "c"], '\n' ∉ l) ∧
      ((chunk_text_blocks [str "ab", str "c"] 3).map splitNL).flatten =
        [str "ab", str "c"] :=
  ⟨by decide, by decide, chunk_roundtrip [str "ab", str "c"] 3 (by decide) (by decide)⟩

/-- C7: for three lines of length 5000 each and budget 12000, chunking
produces exactly two chunks: the first two lines joined, then the third
line alone (5000 + 1 + 5000 + 1 = 10002 fits, adding the third would
not). -/
theorem chunk_example_5000 (l1 l2 l3 : Str)
    (h1 : l1.length = 5000) (h2 : l2.length = 5000) (h3 : l3.length = 5000) :
    chunk_text_blocks [l1, l2, l3] 12000 = [l1 ++ '\n' :: l2, l3] := by
  simp [chunk_text_blocks, chunkLoop, h1, h2, h3, joinNL, joinSep]

theorem chunk_example_5000_witness :
    (List.replicate 5000 'a').length = 5000 ∧
      chunk_text_blocks
          [List.replicate 5000 'a', List.replicate 5000 'a',
            List.replicate 5000 'a'] 12000 =
        [List.replicate 5000 'a' ++ '\n' :: List.replicate 5000 'a',
          List.replicate 5000 'a'] :=
  ⟨List.length_replicate 5000 'a',
    chunk_example_5000 _ _ _ (List.length_replicate 5000 'a')
      (List.length_replicate 5000 'a') (List.length_replicate 5000 'a')⟩

/-!  Identity sanitizer (claims C4 and C5). -/

theorem str_at : str "@" = ['@'] := rfl

theorem str_atz : str "@\u200B" = ['@', '\u200B'] := rfl

theorem str_open : str "<@" = ['<', '@'] := rfl

theorem str_openz : str "<@\u200B" = ['<', '@', '\u200B'] := rfl

/-- The first substitution pass of `safe_name` leaves every `@` followed
by the zero-width separator. -/
theorem atSafe_after_at_pass :
    ∀ (fuel : Nat) (name : Str), name.length ≤ fuel →
      atSafe (pyReplaceFuel ['@'] ['@', '\u200B'] fuel name) := by
  intro fuel
  induction fuel with
  | zero =>
    intro name h
    have hn : name = [] := List.length_eq_zero.mp (Nat.le_zero.mp h)
    subst hn
    trivial
  | succ fuel ih =>
    intro name h
    cases name with
    | nil => trivial
    | cons c rest =>
      have hlen : rest.length ≤ fuel := by
        simpa using Nat.succ_le_succ_iff.mp (by simpa using h)
      by_cases hc : c = '@'
      · subst hc
        have hz : ('\u200B' : Char) ≠ '@' := by decide
        simp only [pyReplaceFuel, List.isPrefixOf, List.isEmpty_cons]
        simp [atSafe, hz, ih rest hlen]
      · have hc' : ('@' == c) = false := by
          simp [beq_eq_false_iff_ne]; exact fun e => hc e.symm
        simp only [pyReplaceFuel, List.isPrefixOf, List.isEmpty_cons, hc']
        simp [atSafe, hc, ih rest hlen]

/-- Heads are preserved by the mention-opening pass when the string does
not start with `<`. -/
theorem open_pass_head (fuel : Nat) (t : Str) :
    (pyReplaceFuel ['<', '@'] ['<', '@', '\u200B'] fuel ('\u200B' :: t)).head? =
      some '\u200B' := by
  cases fuel with
  | zero => rfl
  | succ f =>
    have hne : ('<' == '\u200B') = false := by decide
    simp [pyReplaceFuel, List.isPrefixOf, hne]

/-- The second substitution pass of `safe_name` preserves the invariant
that every `@` is followed by the zero-width separator. -/
theorem atSafe_after_open_pass :
    ∀ (fuel : Nat) (s : Str), s.length ≤ fuel → atSafe s →
      atSafe (pyReplaceFuel ['<', '@'] ['<', '@', '\u200B'] fuel s) := by
  intro fuel
  induction fuel with
  | zero =>
    intro s h _
    have hn : s = [] := List.length_eq_zero.mp (Nat.le_zero.mp h)
    subst hn
    trivial
  | succ fuel ih =>
    intro s h hsafe
    cases s with
    | nil => trivial
    | cons c rest =>
      have hlen : rest.length ≤ fuel := by
        simpa using Nat.succ_le_succ_iff.mp (by simpa using h)
      by_cases hmatch : (['<', '@'] : Str).isPrefixOf (c :: rest) = true
      · obtain ⟨hc, hrest⟩ : c = '<' ∧ (['@'] : Str).isPrefixOf rest = true := by
          cases hc : ('<' == c) <;>
            simp_all [List.isPrefixOf, BEq.comm]
        obtain ⟨d, rest', hd⟩ : ∃ d rest', rest = d :: rest' := by
          cases rest with
          | nil => simp [List.isPrefixOf] at hrest
          | cons d rest' => exact ⟨d, rest', rfl⟩
        subst hd
        have hdat : d = '@' := by
          cases hde : ('@' == d) <;> simp_all [List.isPrefixOf, BEq.comm]
        subst hdat hc
        have hhead : rest'.head? = some '\u200B' := (hsafe.2.1) rfl
        have hsafe' : atSafe rest' := hsafe.2.2
        have hlen' : rest'.length ≤ fuel := by
          simp at hlen; omega
        have hz1 : ('<' : Char) ≠ '@' := by decide
        have hz2 : ('\u200B' : Char) ≠ '@' := by decide
        simp only [pyReplaceFuel, List.isPrefixOf, List.isEmpty_cons]
        simp [atSafe, hz1, hz2, ih rest' hlen' hsafe']
      · simp only [pyReplaceFuel, List.isEmpty_cons, Bool.not_false,
          Bool.true_and, hmatch, Bool.false_eq_true, if_false]
        refine ⟨?_, ih rest hlen hsafe.2⟩
        intro hc
        subst hc
        have hhd : rest.head? = some '\u200B' := hsafe.1 rfl
        obtain ⟨t, ht⟩ : ∃ t, rest = '\u200B' :: t := by
          cases rest with
          | nil => simp at hhd
          | cons d t => simp at hhd; exact ⟨t, by rw [hhd]⟩
        rw [ht]
        exact open_pass_head fuel t

/-- C5: for every non-empty input name, the sanitized name contains no
occurrence of "@" that is not immediately followed by the zero-width
separator U+200B. -/
theorem safe_name_no_bare_at (name : Str) (h : name ≠ []) :
    atSafe (safe_name name) := by
  unfold safe_name
  rw [if_neg h, str_open, str_openz, str_at, str_atz]
  unfold pyReplace
  exact atSafe_after_open_pass _ _ le_rfl (atSafe_after_at_pass _ _ le_rfl)

theorem safe_name_no_bare_at_witness :
    str "a@b" ≠ [] ∧ atSafe (safe_name (str "a@b")) :=
  ⟨by decide, safe_name_no_bare_at (str "a@b") (by decide)⟩

/-- C4 as stated is false: sanitizing "<@123>" does not yield
"<@\u200B123>", because the second substitution pass still matches the
intact "<@" pair left by the first pass. -/
theorem safe_name_mention_cex :
    safe_name (str "<@123>") ≠ str "<@\u200B123>" := by decide

/-- C4 (amended): sanitizing "<@123>" yields "<@\u200B\u200B123>": the
trigger-character pass inserts one zero-width separator after the "@",
and the mention-opening pass, still finding the "<@" pair intact, inserts
a second one. -/
theorem safe_name_mention_example :
    safe_name (str "<@123>") = str "<@\u200B\u200B123>" := by decide

/-!  Orchestrator call protocol (claims C3, C9, C8). -/

theorem mapPhase_fst (gen : Str → Str) (n : Nat) :
    ∀ (i : Nat) (chunks : List Str),
      (mapPhase gen n i chunks).map Prod.fst = mapPromptsFrom n i chunks := by
  intro i chunks
  induction chunks generalizing i with
  | nil => rfl
  | cons ch rest ih => simp [mapPhase, mapPromptsFrom, ih]

theorem mapPhase_snd (gen : Str → Str) (n : Nat) :
    ∀ (i : Nat) (chunks : List Str),
      (mapPhase gen n i chunks).map Prod.snd =
        (mapPromptsFrom n i chunks).map gen := by
  intro i chunks
  induction chunks generalizing i with
  | nil => rfl
  | cons ch rest ih => simp [mapPhase, mapPromptsFrom, ih]

theorem mapPromptsFrom_length (n : Nat) :
    ∀ (i : Nat) (chunks : List Str),
      (mapPromptsFrom n i chunks).length = chunks.length := by
  intro i chunks
  induction chunks generalizing i with
  | nil => rfl
  | cons ch rest ih => simp [mapPromptsFrom, ih]

/-- C3: assuming every backend call returns without raising, a run on a
single chunk issues exactly one Generation Client call, on the direct
summary prompt; a run on N > 1 chunks issues exactly the N map-phase
prompts, one per chunk in chunk order numbered from 1, followed by exactly
one reduce-phase call on the joined partial summaries, N + 1 calls in
total and in that order. -/
theorem summary_call_protocol (gen : Str → Str) (glossary : Str)
    (chunks : List Str) :
    (chunks.length = 1 →
      (summaryRun gen glossary chunks).1 =
        [build_summary_prompt glossary (chunks.headD [])]) ∧
    (2 ≤ chunks.length →
      (summaryRun gen glossary chunks).1 =
        mapPromptsFrom chunks.length 1 chunks ++
          [reduce_prompt
            (joinNL ((mapPromptsFrom chunks.length 1 chunks).map gen))] ∧
      (summaryRun gen glossary chunks).1.length = chunks.length + 1) := by
  constructor
  · intro h1
    simp [summaryRun, h1]
  · intro h2
    have hne : ¬(chunks.length = 1) := by omega
    refine ⟨?_, ?_⟩
    · simp [summaryRun, hne, mapPhase_fst, mapPhase_snd]
    · simp [summaryRun, hne, mapPhase_fst, mapPhase_snd, mapPromptsFrom_length]

theorem summary_call_protocol_witness :
    2 ≤ ([str "a", str "b"] : List Str).length ∧
      (summaryRun id (str "\x7b\x7d") [str "a", str "b"]).1 =
        mapPromptsFrom ([str "a", str "b"] : List Str).length 1
            [str "a", str "b"] ++
          [reduce_prompt
            (joinNL ((mapPromptsFrom ([str "a", str "b"] : List Str).length 1
              [str "a", str "b"]).map id))] :=
  ⟨by decide,
    ((summary_call_protocol id (str "\x7b\x7d") [str "a", str "b"]).2
      (by decide)).1⟩

/-- C9: whenever the final Generation Client call of a run (the
single-chunk call, or the reduce-phase call — in either case the last
prompt of the call trace) returns the empty string, the orchestrator
replies with the fixed fallback sentinel instead of an empty reply. -/
theorem summary_empty_fallback (gen : Str → Str) (glossary : Str)
    (chunks : List Str)
    (h : gen ((summaryRun gen glossary chunks).1.getLastD []) = []) :
    (summaryRun gen glossary chunks).2 = sentinel := by
  by_cases h1 : chunks.length = 1
  · simp only [summaryRun, h1, if_true] at h ⊢
    simp only [List.getLastD_eq_getLast?, List.getLast?_singleton,
      Option.getD_some] at h
    simp_all
  · simp only [summaryRun, h1, if_false] at h ⊢
    rw [List.getLastD_concat] at h
    simp [h]

theorem summary_empty_fallback_witness :
    (fun _ : Str => ([] : Str))
        ((summaryRun (fun _ => []) (str "\x7b\x7d") [str "x"]).1.getLastD [])
      = [] ∧
      (summaryRun (fun _ => []) (str "\x7b\x7d") [str "x"]).2 = sentinel :=
  ⟨rfl, summary_empty_fallback (fun _ => []) (str "\x7b\x7d") [str "x"] rfl⟩

theorem collectMessages_nil_of_unqualified :
    ∀ msgs : List RawMsg,
      (∀ m ∈ msgs, m.author_bot = true ∨ clean_message_content m.content = []) →
      collectMessages msgs = [] := by
  intro msgs
  induction msgs with
  | nil => intro _; rfl
  | cons m rest ih =>
    intro h
    have hrest := ih (fun x hx => h x (by simp [hx]))
    rcases h m (by simp) with hb | hc
    · simp [collectMessages, hb, hrest]
    · by_cases hb : m.author_bot <;> simp [collectMessages, hb, hc, hrest]

/-- C8: if history retrieval yields zero qualifying messages (every
retrieved message is bot-authored or normalizes to the empty string), the
summary command replies with the single fixed "No messages found" message
and performs zero Generation Client calls (an empty call trace). -/
theorem summary_no_messages (gen : Str → Str) (glossary : Str)
    (msgs : List RawMsg)
    (h : ∀ m ∈ msgs, m.author_bot = true ∨ clean_message_content m.content = []) :
    summary gen glossary msgs = ([], no_messages_reply) := by
  simp [summary, collectMessages_nil_of_unqualified msgs h]

theorem summary_no_messages_witness :
    (∀ m ∈ [RawMsg.mk true (str "alice") (some (str "hi")) (str "t1"),
            RawMsg.mk false (str "bob") (some (str "   ")) (str "t2")],
        m.author_bot = true ∨ clean_message_content m.content = []) ∧
      summary (fun s => s) (str "\x7b\x7d")
          [RawMsg.mk true (str "alice") (some (str "hi")) (str "t1"),
            RawMsg.mk false (str "bob") (some (str "   ")) (str "t2")] =
        ([], no_messages_reply) :=
  ⟨by decide, summary_no_messages _ _ _ (by decide)⟩

/-!  Text normalizer (claim C10). -/

theorem length_dropWhile_le' (p : Char → Bool) :
    ∀ l : Str, (l.dropWhile p).length ≤ l.length := by
  intro l
  induction l with
  | nil => simp
  | cons c t ih =>
    rw [List.dropWhile_cons]
    split
    · exact Nat.le_succ_of_le ih
    · simp

theorem mem_of_getLast?_eq {l : Str} {c : Char} (h : l.getLast? = some c) :
    c ∈ l := by
  obtain ⟨hne, rfl⟩ :=
    List.mem_getLast?_eq_getLast (show c ∈ l.getLast? by simp [Option.mem_def, h])
  exact List.getLast_mem hne

/-- Every word produced by the whitespace split is non-empty and contains
no whitespace character. -/
theorem pySplitWsFuel_words :
    ∀ (fuel : Nat) (s : Str), s.length ≤ fuel →
      ∀ w ∈ pySplitWsFuel fuel s, w ≠ [] ∧ ∀ c ∈ w, pyIsSpace c = false := by
  intro fuel
  induction fuel with
  | zero =>
    intro s h w hw
    have hs : s = [] := List.length_eq_zero.mp (Nat.le_zero.mp h)
    subst hs
    simp [pySplitWsFuel] at hw
  | succ fuel ih =>
    intro s h w hw
    cases s with
    | nil => simp [pySplitWsFuel] at hw
    | cons c rest =>
      have hlen : rest.length ≤ fuel := by simpa using h
      by_cases hc : pyIsSpace c = true
      · rw [show pySplitWsFuel (fuel + 1) (c :: rest) = pySplitWsFuel fuel rest
            from by simp [pySplitWsFuel, hc]] at hw
        exact ih rest hlen w hw
      · have hc' : pyIsSpace c = false := by simpa using hc
        simp only [pySplitWsFuel, hc', Bool.false_eq_true, if_false,
          List.mem_cons] at hw
        rcases hw with hw | hw
        · subst hw
          refine ⟨by simp, ?_⟩
          intro d hd
          rcases List.mem_cons.mp hd with hd | hd
          · subst hd; exact hc'
          · simpa using List.mem_takeWhile_imp hd
        · exact ih _ (le_trans (length_dropWhile_le' _ rest) hlen) w hw

theorem joinSpace_ne_nil :
    ∀ ws : List Str, ws ≠ [] → (∀ w ∈ ws, w ≠ []) → joinSpace ws ≠ [] := by
  intro ws hne hw
  cases ws with
  | nil => exact absurd rfl hne
  | cons w t =>
    cases t with
    | nil => simpa [joinSpace, joinSep_single] using hw w (by simp)
    | cons x t' => simp [joinSpace, joinSep_cons_cons]

/-- Every character of a space-join of whitespace-free words is either a
non-whitespace character or the single space separator. -/
theorem joinSpace_chars :
    ∀ ws : List Str, (∀ w ∈ ws, ∀ c ∈ w, pyIsSpace c = false) →
      ∀ c ∈ joinSpace ws, pyIsSpace c = false ∨ c = ' ' := by
  intro ws
  induction ws with
  | nil => intro _ c hc; simp [joinSpace, joinSep_nil] at hc
  | cons w t ih =>
    intro hw c hc
    cases t with
    | nil =>
      simp only [joinSpace, joinSep_single] at hc
      exact Or.inl (hw w (by simp) c hc)
    | cons x t' =>
      simp only [joinSpace, joinSep_cons_cons] at hc
      rcases List.mem_append.mp hc with hc | hc
      · exact Or.inl (hw w (by simp) c hc)
      · rcases List.mem_cons.mp hc with hc | hc
        · exact Or.inr hc
        · exact ih (fun a ha => hw a (by simp [ha])) c
            (by simpa [joinSpace] using hc)

theorem joinSpace_head :
    ∀ ws : List Str, (∀ w ∈ ws, w ≠ [] ∧ ∀ c ∈ w, pyIsSpace c = false) →
      ∀ c, (joinSpace ws).head? = some c → pyIsSpace c = false := by
  intro ws hw c hc
  cases ws with
  | nil => simp [joinSpace, joinSep_nil] at hc
  | cons w t =>
    obtain ⟨hwne, hwc⟩ := hw w (by simp)
    obtain ⟨c0, w', rfl⟩ : ∃ c0 w', w = c0 :: w' := by
      cases w with
      | nil => exact absurd rfl hwne
      | cons a b => exact ⟨a, b, rfl⟩
    cases t with
    | nil =>
      simp only [joinSpace, joinSep_single, List.head?_cons,
        Option.some.injEq] at hc
      subst hc
      exact hwc _ (by simp)
    | cons x t' =>
      simp only [joinSpace, joinSep_cons_cons, List.cons_append,
        List.head?_cons, Option.some.injEq] at hc
      subst hc
      exact hwc _ (by simp)

theorem joinSpace_getLast :
    ∀ ws : List Str, (∀ w ∈ ws, w ≠ [] ∧ ∀ c ∈ w, pyIsSpace c = false) →
      ∀ c, (joinSpace ws).getLast? = some c → pyIsSpace c = false := by
  intro ws
  induction ws with
  | nil => intro _ c hc; simp [joinSpace, joinSep_nil] at hc
  | cons w t ih =>
    intro hw c hc
    obtain ⟨hwne, hwc⟩ := hw w (by simp)
    cases t with
    | nil =>
      simp only [joinSpace, joinSep_single] at hc
      exact hwc c (mem_of_getLast?_eq hc)
    | cons x t' =>
      have hJne : joinSpace (x :: t') ≠ [] :=
        joinSpace_ne_nil (x :: t') (by simp) (fun a ha => (hw a (by simp [ha])).1)
      simp only [joinSpace, joinSep_cons_cons] at hc
      rw [List.getLast?_append_of_ne_nil w (by simp)] at hc
      rw [show (' ' :: joinSep ' ' (x :: t')) = [' '] ++ joinSep ' ' (x :: t')
          from rfl,
        List.getLast?_append_of_ne_nil [' ']
          (by simpa [joinSpace] using hJne)] at hc
      exact ih (fun a ha => hw a (by simp [ha])) c (by simpa [joinSpace] using hc)

theorem nds_of_all_nonspace :
    ∀ w : Str, (∀ c ∈ w, pyIsSpace c = false) → noDoubleSpace w := by
  intro w
  induction w with
  | nil => intro _; trivial
  | cons c rest ih =>
    intro h
    refine ⟨?_, ih (fun d hd => h d (by simp [hd]))⟩
    intro hc
    have hcs := h c (by simp)
    rw [hc] at hcs
    exact absurd hcs (by decide)

theorem nds_word_sep :
    ∀ (w t : Str), (∀ c ∈ w, pyIsSpace c = false) →
      (∀ c, t.head? = some c → pyIsSpace c = false) → noDoubleSpace t →
      noDoubleSpace (w ++ ' ' :: t) := by
  intro w
  induction w with
  | nil =>
    intro t _ hhead ht
    exact ⟨fun _ hsp => absurd (hhead ' ' hsp) (by decide), ht⟩
  | cons a w' ih =>
    intro t hw hhead ht
    refine ⟨?_, ih t (fun d hd => hw d (by simp [hd])) hhead ht⟩
    intro ha
    have has := hw a (by simp)
    rw [ha] at has
    exact absurd has (by decide)

theorem joinSpace_nds :
    ∀ ws : List Str, (∀ w ∈ ws, w ≠ [] ∧ ∀ c ∈ w, pyIsSpace c = false) →
      noDoubleSpace (joinSpace ws) := by
  intro ws
  induction ws with
  | nil => intro _; trivial
  | cons w t ih =>
    intro hw
    cases t with
    | nil =>
      have := nds_of_all_nonspace w (hw w (by simp)).2
      simpa [joinSpace, joinSep_single] using this
    | cons x t' =>
      have hh := joinSpace_head (x :: t') (fun a ha => hw a (by simp [ha]))
      have hnds := ih (fun a ha => hw a (by simp [ha]))
      have := nds_word_sep w (joinSpace (x :: t')) (hw w (by simp)).2 hh hnds
      simpa [joinSpace, joinSep_cons_cons] using this

theorem dropWhile_head_false (p : Char → Bool) :
    ∀ l : Str, (∀ c, l.head? = some c → p c = false) → l.dropWhile p = l := by
  intro l h
  cases l with
  | nil => rfl
  | cons c t =>
    have := h c rfl
    simp [List.dropWhile_cons, this]

theorem pyStrip_of_ends (s : Str)
    (hh : ∀ c, s.head? = some c → pyIsSpace c = false)
    (hl : ∀ c, s.getLast? = some c → pyIsSpace c = false) :
    pyStrip s = s := by
  unfold pyStrip
  rw [dropWhile_head_false pyIsSpace s hh]
  rw [dropWhile_head_false pyIsSpace s.reverse
    (fun c hc => hl c (by rwa [List.head?_reverse] at hc))]
  exact List.reverse_reverse s

theorem takeWhile_all (p : Char → Bool) :
    ∀ l : Str, (∀ c ∈ l, p c = true) → l.takeWhile p = l := by
  intro l
  induction l with
  | nil => intro _; rfl
  | cons c t ih =>
    intro h
    simp [List.takeWhile_cons, h c (by simp), ih (fun d hd => h d (by simp [hd]))]

theorem dropWhile_all (p : Char → Bool) :
    ∀ l : Str, (∀ c ∈ l, p c = true) → l.dropWhile p = [] := by
  intro l
  induction l with
  | nil => intro _; rfl
  | cons c t ih =>
    intro h
    simp [List.dropWhile_cons, h c (by simp), ih (fun d hd => h d (by simp [hd]))]

theorem takeWhile_append_stop (p : Char → Bool) (x : Char) (hx : p x = false) :
    ∀ (l t : Str), (∀ c ∈ l, p c = true) →
      (l ++ x :: t).takeWhile p = l ∧ (l ++ x :: t).dropWhile p = x :: t := by
  intro l
  induction l with
  | nil =>
    intro t _
    constructor
    · simp [List.takeWhile_cons, hx]
    · simp [List.dropWhile_cons, hx]
  | cons a l' ih =>
    intro t h
    have ha := h a (by simp)
    obtain ⟨h1, h2⟩ := ih t (fun c hc => h c (by simp [hc]))
    constructor
    · simp [List.takeWhile_cons, ha, h1]
    · simp [List.dropWhile_cons, ha, h2]

/-- Splitting a space-join of non-empty whitespace-free words recovers
exactly the words. -/
theorem pySplitWsFuel_joinSpace :
    ∀ ws : List Str, (∀ w ∈ ws, w ≠ [] ∧ ∀ c ∈ w, pyIsSpace c = false) →
      ∀ fuel : Nat, (joinSpace ws).length ≤ fuel →
        pySplitWsFuel fuel (joinSpace ws) = ws := by
  intro ws
  induction ws with
  | nil =>
    intro _ fuel _
    cases fuel <;> rfl
  | cons w t ih =>
    intro hw fuel hfuel
    obtain ⟨hwne, hwc⟩ := hw w (by simp)
    obtain ⟨c0, w', rfl⟩ : ∃ c0 w', w = c0 :: w' := by
      cases w with
      | nil => exact absurd rfl hwne
      | cons a b => exact ⟨a, b, rfl⟩
    have hc0 : pyIsSpace c0 = false := hwc c0 (by simp)
    have hw' : ∀ c ∈ w', (fun d => !pyIsSpace d) c = true := by
      intro c hc
      simp [hwc c (by simp [hc])]
    cases t with
    | nil =>
      cases fuel with
      | zero => simp [joinSpace, joinSep_single] at hfuel
      | succ f =>
        simp only [joinSpace, joinSep_single]
        simp only [pySplitWsFuel, hc0, Bool.false_eq_true, if_false]
        rw [takeWhile_all _ w' hw', dropWhile_all _ w' hw']
        simp [show pySplitWsFuel f [] = [] from by cases f <;> rfl]
    | cons x t' =>
      have hJw : ∀ a ∈ x :: t', a ≠ [] ∧ ∀ c ∈ a, pyIsSpace c = false :=
        fun a ha => hw a (by simp [ha])
      cases fuel with
      | zero => simp [joinSpace, joinSep_cons_cons] at hfuel
      | succ f =>
        simp only [joinSpace, joinSep_cons_cons, List.cons_append] at hfuel ⊢
        simp only [pySplitWsFuel, hc0, Bool.false_eq_true, if_false]
        obtain ⟨htake, hdrop⟩ :=
          takeWhile_append_stop (fun d => !pyIsSpace d) ' ' (by decide) w'
            (joinSep ' ' (x :: t')) hw'
        rw [htake, hdrop]
        congr 1
        cases f with
        | zero =>
          exfalso
          simp [List.length_append] at hfuel
        | succ f' =>
          have hsp : pyIsSpace ' ' = true := by decide
          simp only [pySplitWsFuel, hsp, if_true]
          show pySplitWsFuel f' (joinSpace (x :: t')) = x :: t'
          refine ih hJw f' ?_
          simp only [List.length_cons, List.length_append] at hfuel
          simpa [joinSpace] using by omega

/-- C10: for every input (None treated as empty), the text normalizer
returns a string with no newline character, no two consecutive spaces,
and no leading or trailing whitespace character; normalizing is
idempotent, and a formatted chat line built from a newline-free timestamp
and author name around a normalized content is newline-free. -/
theorem clean_message_content_normal (content : Option Str) :
    '\n' ∉ clean_message_content content ∧
    noDoubleSpace (clean_message_content content) ∧
    (∀ c, (clean_message_content content).head? = some c →
      pyIsSpace c = false) ∧
    (∀ c, (clean_message_content content).getLast? = some c →
      pyIsSpace c = false) ∧
    clean_message_content (some (clean_message_content content)) =
      clean_message_content content ∧
    (∀ ts author : Str, '\n' ∉ ts → '\n' ∉ author →
      '\n' ∉ formatLine ts author (clean_message_content content)) := by
  set s := pyStrip (content.getD []) with hs
  have hwords : ∀ w ∈ pySplitWs s, w ≠ [] ∧ ∀ c ∈ w, pyIsSpace c = false :=
    pySplitWsFuel_words s.length s le_rfl
  have hcc : clean_message_content content = joinSpace (pySplitWs s) := rfl
  have h1 : '\n' ∉ joinSpace (pySplitWs s) := by
    intro hmem
    rcases joinSpace_chars (pySplitWs s) (fun w hw => (hwords w hw).2) '\n' hmem
      with h | h
    · exact absurd h (by decide)
    · exact absurd h (by decide)
  refine ⟨by rw [hcc]; exact h1, ?_, ?_, ?_, ?_, ?_⟩
  · rw [hcc]
    exact joinSpace_nds (pySplitWs s) hwords
  · intro c hc
    rw [hcc] at hc
    exact joinSpace_head (pySplitWs s) hwords c hc
  · intro c hc
    rw [hcc] at hc
    exact joinSpace_getLast (pySplitWs s) hwords c hc
  · have hstrip : pyStrip (joinSpace (pySplitWs s)) = joinSpace (pySplitWs s) :=
      pyStrip_of_ends _ (joinSpace_head (pySplitWs s) hwords)
        (joinSpace_getLast (pySplitWs s) hwords)
    have hsplit : pySplitWs (joinSpace (pySplitWs s)) = pySplitWs s := by
      show pySplitWsFuel (joinSpace (pySplitWs s)).length
          (joinSpace (pySplitWs s)) = pySplitWs s
      exact pySplitWsFuel_joinSpace (pySplitWs s) hwords _ le_rfl
    calc clean_message_content (some (clean_message_content content))
        = joinSpace (pySplitWs (pyStrip (joinSpace (pySplitWs s)))) := by
          rw [hcc]
          rfl
      _ = joinSpace (pySplitWs s) := by rw [hstrip, hsplit]
      _ = clean_message_content content := hcc.symm
  · intro ts author hts hau hmem
    rw [hcc] at hmem
    simp only [formatLine, List.mem_append] at hmem
    rcases hmem with ((((hm | hm) | hm) | hm) | hm) | hm
    · exact absurd hm (by decide)
    · exact hts hm
    · exact absurd hm (by decide)
    · exact hau hm
    · exact absurd hm (by decide)
    · exact h1 hm

theorem clean_message_content_normal_witness :
    '\n' ∉ clean_message_content (some (str " a  b\nc ")) ∧
      clean_message_content
          (some (clean_message_content (some (str " a  b\nc ")))) =
        clean_message_content (some (str " a  b\nc ")) ∧
      '\n' ∉ str "2024-01-01 00:00 UTC" ∧ '\n' ∉ str "bob" ∧
      '\n' ∉ formatLine (str "2024-01-01 00:00 UTC") (str "bob")
          (clean_message_content (some (str " a  b\nc "))) :=
  ⟨(clean_message_content_normal (some (str " a  b\nc "))).1,
    (clean_message_content_normal (some (str " a  b\nc "))).2.2.2.2.1,
    by decide, by decide,
    (clean_message_content_normal (some (str " a  b\nc "))).2.2.2.2.2
      (str "2024-01-01 00:00 UTC") (str "bob") (by decide) (by decide)⟩

end TranslatorBot
